import Mathlib

/-!
# Verification of the libbencode codec

A shallow embedding of `src/libbencode/decoder.py` and
`src/libbencode/encoder.py`.  Byte buffers are `List Nat` (one entry per
byte), Python `str` values are lists of Unicode code points, Python `int`
is `Int`, and a raised `BencodeError` is an `Except.error` carrying a
constructor per distinct error message.

Decoder functions mirror the source line by line: `bfind` is
`bytes.find`, `pyInt` is Python's `int()` applied to a byte string
(optional surrounding ASCII whitespace, one optional sign, decimal digits
with single underscores allowed between digits), and the container
decoders thread absolute positions exactly as the `while` loops in
`Decoder.decode_list` / `Decoder.decode_dict` do.  The loops are given
explicit fuel (`2 * data.length + 1` suffices, each iteration consumes at
least one byte); `Err.fuelExhausted` never escapes the top-level wrappers.
-/

namespace Bencode

/-- `bytes.find(t)`: index of the first occurrence, `none` for `-1`. -/
def bfind (t : Nat) : List Nat → Option Nat
  | [] => none
  | x :: xs => if x = t then some 0 else (bfind t xs).map (· + 1)

/-- ASCII whitespace accepted by Python's `int()` on `bytes`. -/
def isWS (c : Nat) : Bool := c == 32 || (9 ≤ c && c ≤ 13)

/-- ASCII decimal digit. -/
def isDigitB (c : Nat) : Bool := 48 ≤ c && c ≤ 57

/-- Digit test on a one-byte slice (`b"0" <= data[pos:pos+1] <= b"9"`);
an empty slice fails the comparison in Python. -/
def optIsDigit : Option Nat → Bool
  | some c => isDigitB c
  | none => false

/-- Strip leading and trailing ASCII whitespace, as `int()` does. -/
def trimWS (l : List Nat) : List Nat :=
  ((l.dropWhile isWS).reverse.dropWhile isWS).reverse

/-- Digit run after the first digit: plain digits, or a single underscore
followed by a digit (CPython's `int()` grammar for the tail). -/
def pyDigitsGo (acc : Nat) : List Nat → Option Nat
  | [] => some acc
  | d :: rest =>
    if isDigitB d then pyDigitsGo (acc * 10 + (d - 48)) rest
    else if d = 95 then
      match rest with
      | d2 :: rest2 =>
        if isDigitB d2 then pyDigitsGo (acc * 10 + (d2 - 48)) rest2 else none
      | [] => none
    else none

/-- Unsigned digit sequence: must begin with a digit. -/
def pyDigits : List Nat → Option Nat
  | [] => none
  | d :: rest => if isDigitB d then pyDigitsGo (d - 48) rest else none

/-- Python `int(bytes_value)`: trims whitespace, accepts one optional
sign, then a digit sequence; `none` models the raised `ValueError`. -/
def pyInt (s : List Nat) : Option Int :=
  match trimWS s with
  | [] => none
  | c :: rest =>
    if c = 45 then (pyDigits rest).map (fun m => -(m : Int))
    else if c = 43 then (pyDigits rest).map (fun m => (m : Int))
    else (pyDigits (c :: rest)).map (fun m => (m : Int))

/-- The distinct `BencodeError` messages raised by the source, one
constructor per message, carrying the data interpolated into it. -/
inductive Err : Type
  | intStartNotFound
  | intEndNotFound
  | intNotFound
  | negativeZero
  | leadingZeros
  | malformedInt (s : List Nat)
  | strColonNotFound
  | malformedLength (s : List Nat)
  | negativeLength
  | strTooShort (length : Int)
  | listStartNotFound
  | listEndNotFound
  | invalidElement (c : Option Nat) (pos : Nat)
  | dictStartNotFound
  | dictEndNotFound
  | invalidKeyChar (c : Option Nat) (pos : Nat)
  | invalidValueChar (c : Option Nat) (pos : Nat)
  | invalidFormat (c : Option Nat)
  | unsupportedType
  | unsupportedKeyType
  | unsupportedValueType
  | fuelExhausted
  deriving DecidableEq

/-- Decoded Python value (with `encoding=None`, so strings stay bytes).
A decoded dictionary is its insertion-ordered entry list. -/
inductive DVal : Type
  | int (n : Int)
  | bytes (bs : List Nat)
  | list (items : List DVal)
  | dict (entries : List (List Nat × DVal))

/-- `decoded_dict[key] = value` on an insertion-ordered Python dict:
overwrite in place if the key is present, else append. -/
def dictInsert (d : List (List Nat × DVal)) (k : List Nat) (v : DVal) :
    List (List Nat × DVal) :=
  if d.any (fun e => e.1 == k) then
    d.map (fun e => if e.1 == k then (e.1, v) else e)
  else d ++ [(k, v)]

/-- Mapping lookup on the insertion-ordered entry list. -/
def dictLookup (d : List (List Nat × DVal)) (k : List Nat) : Option DVal :=
  (d.find? (fun e => e.1 == k)).map (·.2)

/-- `Decoder.decode_int` (decoder.py:11-52). -/
def decodeInt (data : List Nat) : Except Err (Int × Nat) :=
  match bfind 105 data with
  | none => .error .intStartNotFound
  | some start =>
    match bfind 101 data with
    | none => .error .intEndNotFound
    | some endp =>
      if start + 1 = endp then .error .intNotFound
      else if data[start+1]? == some 45 && data[start+2]? == some 48 then
        .error .negativeZero
      else if data[start+1]? == some 48 && start + 2 != endp then
        .error .leadingZeros
      else
        match pyInt ((data.drop (start+1)).take (endp - (start+1))) with
        | none => .error (.malformedInt ((data.drop (start+1)).take (endp - (start+1))))
        | some n => .ok (n, endp)

/-- `Decoder.decode_str` with `encoding=None` (decoder.py:55-92). -/
def decodeStr (data : List Nat) : Except Err (List Nat × Nat) :=
  match bfind 58 data with
  | none => .error .strColonNotFound
  | some colon =>
    match pyInt (data.take colon) with
    | none => .error (.malformedLength (data.take colon))
    | some len =>
      if len < 0 then .error .negativeLength
      else if ((data.drop (colon+1)).take len.toNat).length < len.toNat then
        .error (.strTooShort len)
      else .ok ((data.drop (colon+1)).take len.toNat, colon + len.toNat)

mutual

/-- `Decoder.decode_list` (decoder.py:95-150); the local
`length = len(data[start+1:]) + 1` equals `data.length - start`. -/
def decodeListF : Nat → List Nat → Except Err (List DVal × Nat)
  | 0, _ => .error .fuelExhausted
  | fuel+1, data =>
    match bfind 108 data with
    | none => .error .listStartNotFound
    | some start => decodeListLoopF fuel data start (start + 1) []

/-- The `while pos < length` loop of `decode_list`. -/
def decodeListLoopF : Nat → List Nat → Nat → Nat → List DVal →
    Except Err (List DVal × Nat)
  | 0, _, _, _, _ => .error .fuelExhausted
  | fuel+1, data, start, pos, acc =>
    if pos < data.length - start then
      if data[pos]? == some 105 then
        match decodeInt (data.drop pos) with
        | .error er => .error er
        | .ok (n, endp) =>
          decodeListLoopF fuel data start (pos + endp + 1) (acc ++ [.int n])
      else if optIsDigit data[pos]? then
        match decodeStr (data.drop pos) with
        | .error er => .error er
        | .ok (s, endp) =>
          decodeListLoopF fuel data start (pos + endp + 1) (acc ++ [.bytes s])
      else if data[pos]? == some 108 then
        match decodeListF fuel (data.drop pos) with
        | .error er => .error er
        | .ok (l, endp) =>
          decodeListLoopF fuel data start (pos + endp + 1) (acc ++ [.list l])
      else if data[pos]? == some 100 then
        match decodeDictF fuel (data.drop pos) with
        | .error er => .error er
        | .ok (d, endp) =>
          decodeListLoopF fuel data start (pos + endp + 1) (acc ++ [.dict d])
      else if data[pos]? == some 101 then
        .ok (acc, pos)
      else .error (.invalidElement data[pos]? pos)
    else .error .listEndNotFound

/-- `Decoder.decode_dict` (decoder.py:153-220). -/
def decodeDictF : Nat → List Nat → Except Err (List (List Nat × DVal) × Nat)
  | 0, _ => .error .fuelExhausted
  | fuel+1, data =>
    match bfind 100 data with
    | none => .error .dictStartNotFound
    | some start => decodeDictLoopF fuel data start (start + 1) []

/-- The `while pos < length` loop of `decode_dict`: key then value,
with no guard re-check between the two. -/
def decodeDictLoopF : Nat → List Nat → Nat → Nat → List (List Nat × DVal) →
    Except Err (List (List Nat × DVal) × Nat)
  | 0, _, _, _, _ => .error .fuelExhausted
  | fuel+1, data, start, pos, acc =>
    if pos < data.length - start then
      if data[pos]? == some 101 then .ok (acc, pos)
      else if !(optIsDigit data[pos]?) then .error (.invalidKeyChar data[pos]? pos)
      else
        match decodeStr (data.drop pos) with
        | .error er => .error er
        | .ok (k, ek) =>
          if data[pos + ek + 1]? == some 105 then
            match decodeInt (data.drop (pos + ek + 1)) with
            | .error er => .error er
            | .ok (n, ev) =>
              decodeDictLoopF fuel data start (pos + ek + 1 + ev + 1)
                (dictInsert acc k (.int n))
          else if optIsDigit data[pos + ek + 1]? then
            match decodeStr (data.drop (pos + ek + 1)) with
            | .error er => .error er
            | .ok (s, ev) =>
              decodeDictLoopF fuel data start (pos + ek + 1 + ev + 1)
                (dictInsert acc k (.bytes s))
          else if data[pos + ek + 1]? == some 108 then
            match decodeListF fuel (data.drop (pos + ek + 1)) with
            | .error er => .error er
            | .ok (l, ev) =>
              decodeDictLoopF fuel data start (pos + ek + 1 + ev + 1)
                (dictInsert acc k (.list l))
          else if data[pos + ek + 1]? == some 100 then
            match decodeDictF fuel (data.drop (pos + ek + 1)) with
            | .error er => .error er
            | .ok (d, ev) =>
              decodeDictLoopF fuel data start (pos + ek + 1 + ev + 1)
                (dictInsert acc k (.dict d))
          else .error (.invalidValueChar data[pos + ek + 1]? (pos + ek + 1))
    else .error .dictEndNotFound

end

/-- `Decoder.decode_list` with the fuel fixed high enough (each loop
iteration advances `pos` by at least one, each nested call drops at
least one byte). -/
def decodeList (data : List Nat) : Except Err (List DVal × Nat) :=
  decodeListF (2 * data.length + 1) data

/-- `Decoder.decode_dict` with sufficient fuel. -/
def decodeDict (data : List Nat) : Except Err (List (List Nat × DVal) × Nat) :=
  decodeDictF (2 * data.length + 1) data

/-- `Decoder.decode` (decoder.py:223-247): dispatch on `data[0:1]`. -/
def pyDecode (data : List Nat) : Except Err DVal :=
  if data[0]? == some 105 then (decodeInt data).map (fun r => .int r.1)
  else if optIsDigit data[0]? then (decodeStr data).map (fun r => .bytes r.1)
  else if data[0]? == some 108 then (decodeList data).map (fun r => .list r.1)
  else if data[0]? == some 100 then (decodeDict data).map (fun r => .dict r.1)
  else .error (.invalidFormat data[0]?)

/-! Sanity checks against the repository's own test suite
(`tests/test_decoder.py`). -/

example : decodeInt [105, 52, 50, 101] = .ok (42, 3) := rfl
example : decodeInt [105, 52, 50] = .error .intEndNotFound := rfl
example : decodeInt [105, 101] = .error .intNotFound := rfl
example : decodeInt [105, 45, 48, 101] = .error .negativeZero := rfl
example : decodeInt [105, 48, 49, 50, 101] = .error .leadingZeros := rfl
example : decodeStr [52, 58, 115, 112, 97, 109] = .ok ([115, 112, 97, 109], 5) := rfl
example : decodeStr [48, 58] = .ok ([], 1) := rfl
example : decodeStr [52, 58, 115, 112] = .error (.strTooShort 4) := rfl
example : decodeStr [45, 52, 58, 115, 112, 97, 109] = .error .negativeLength := rfl
-- b"l4:spami42ee" == ([b"spam", 42], 11)
example :
    decodeList [108, 52, 58, 115, 112, 97, 109, 105, 52, 50, 101, 101] =
      .ok ([.bytes [115, 112, 97, 109], .int 42], 11) := rfl
example : decodeList [108, 101] = .ok ([], 1) := rfl
example : decodeList [108, 52, 58, 115, 112, 97, 109, 105, 52, 50, 101] =
    .error .listEndNotFound := rfl
-- b"d3:bar4:spam3:fooi42ee" == ({b"bar": b"spam", b"foo": 42}, 21)
example :
    decodeDict [100, 51, 58, 98, 97, 114, 52, 58, 115, 112, 97, 109,
                51, 58, 102, 111, 111, 105, 52, 50, 101, 101] =
      .ok ([([98, 97, 114], .bytes [115, 112, 97, 109]),
            ([102, 111, 111], .int 42)], 21) := rfl
example : decodeDict [100, 101] = .ok ([], 1) := rfl
example :
    decodeDict [100, 51, 58, 98, 97, 114, 52, 58, 115, 112, 97, 109,
                51, 58, 102, 111, 111, 105, 52, 50, 101] =
      .error .dictEndNotFound := rfl
example : pyDecode [120] = .error (.invalidFormat (some 120)) := rfl

/-! ## Encoder (`encoder.py`) -/

/-- Decimal digit string of a natural number, as produced by Python's
`str` formatting; the fuel argument only drives the recursion and
`n + 1` always suffices. -/
def natToDecGo : Nat → Nat → List Nat
  | 0, _ => []
  | fuel+1, n => if n < 10 then [48 + n] else natToDecGo fuel (n / 10) ++ [48 + n % 10]

/-- `f"{n}"` for a natural number, as ASCII bytes. -/
def natToDec (n : Nat) : List Nat := natToDecGo (n + 1) n

/-- `f"{n}"` for a Python `int`: canonical decimal, `-` only when negative. -/
def intDec (n : Int) : List Nat :=
  if n < 0 then 45 :: natToDec (-n).toNat else natToDec n.toNat

/-- `Encoder.encode_int` (encoder.py:25). -/
def encodeInt (n : Int) : List Nat := 105 :: intDec n ++ [101]

/-- `Encoder.encode_bytes` (encoder.py:42). -/
def encodeBytes (bs : List Nat) : List Nat := natToDec bs.length ++ 58 :: bs

/-- UTF-8 bytes of one Unicode code point. -/
def utf8Char (c : Nat) : List Nat :=
  if c < 0x80 then [c]
  else if c < 0x800 then [0xC0 + c / 64, 0x80 + c % 64]
  else if c < 0x10000 then
    [0xE0 + c / 4096, 0x80 + (c / 64) % 64, 0x80 + c % 64]
  else
    [0xF0 + c / 262144, 0x80 + (c / 4096) % 64, 0x80 + (c / 64) % 64, 0x80 + c % 64]

/-- UTF-8 encoding of a string given as code points. -/
def utf8Str (cs : List Nat) : List Nat := (cs.map utf8Char).flatten

/-- `Encoder.encode_str` (encoder.py:59):
`f"{len(data)}:{data}".encode("utf-8")` — the length prefix is the
CHARACTER count `len(data)`, while the payload is the UTF-8 byte
encoding of the string. -/
def encodeStr (cs : List Nat) : List Nat := natToDec cs.length ++ 58 :: utf8Str cs

/-- `Encoder.encode_bool` (encoder.py:160): `encode_int(int(data))`. -/
def encodeBool (b : Bool) : List Nat := encodeInt (if b then 1 else 0)

/-- Python value accepted by `Encoder.encode`: the supported variants
{bool, int, bytes, str, list, dict}.  `pstr` carries code points. -/
inductive PVal : Type
  | pbool (b : Bool)
  | pint (n : Int)
  | pbytes (bs : List Nat)
  | pstr (cs : List Nat)
  | plist (items : List PVal)
  | pdict (entries : List (PVal × PVal))

mutual

/-- `Encoder.encode` (encoder.py:163-195). -/
def encodeVal : PVal → Except Err (List Nat)
  | .pbool b => .ok (encodeBool b)
  | .pint n => .ok (encodeInt n)
  | .pbytes bs => .ok (encodeBytes bs)
  | .pstr cs => .ok (encodeStr cs)
  | .plist items => encodeList items
  | .pdict es => encodeDict es

/-- `Encoder.encode_list` (encoder.py:62-95). -/
def encodeList (items : List PVal) : Except Err (List Nat) :=
  (encItems items).map (fun b => 108 :: b ++ [101])
termination_by (sizeOf items, 1)

/-- The item loop of `encode_list`.  The source dispatches on
bool/int/bytes/str/dict and has NO `isinstance(item, list)` branch
(encoder.py:81-92), so a list item falls to the `else` raise. -/
def encItems : List PVal → Except Err (List Nat)
  | [] => .ok []
  | .pbool b :: rest => (encItems rest).map (fun t => encodeBool b ++ t)
  | .pint n :: rest => (encItems rest).map (fun t => encodeInt n ++ t)
  | .pbytes bs :: rest => (encItems rest).map (fun t => encodeBytes bs ++ t)
  | .pstr cs :: rest => (encItems rest).map (fun t => encodeStr cs ++ t)
  | .pdict es :: rest =>
    match encodeDict es with
    | .error er => .error er
    | .ok b => (encItems rest).map (fun t => b ++ t)
  | .plist _ :: _ => .error .unsupportedType
termination_by items => (sizeOf items, 0)

/-- `Encoder.encode_dict` (encoder.py:98-141). -/
def encodeDict (es : List (PVal × PVal)) : Except Err (List Nat) :=
  (encEntries es).map (fun b => 100 :: b ++ [101])
termination_by (sizeOf es, 1)

/-- The entry loop of `encode_dict`: key must be bytes or str; values
dispatch over all six variants (here `encode_dict` DOES handle lists). -/
def encEntries : List (PVal × PVal) → Except Err (List Nat)
  | [] => .ok []
  | (k, v) :: rest =>
    match (match k with
           | .pbytes bs => Except.ok (encodeBytes bs)
           | .pstr cs => Except.ok (encodeStr cs)
           | _ => Except.error Err.unsupportedKeyType) with
    | .error er => .error er
    | .ok kb =>
      match (match v with
             | .pbool b => Except.ok (encodeBool b)
             | .pint n => Except.ok (encodeInt n)
             | .pbytes bs => Except.ok (encodeBytes bs)
             | .pstr cs => Except.ok (encodeStr cs)
             | .plist items => encodeList items
             | .pdict es2 => encodeDict es2) with
      | .error er => .error er
      | .ok vb => (encEntries rest).map (fun t => kb ++ vb ++ t)
termination_by es => (sizeOf es, 0)

end

/-! ## Wire encoding of decoded values

The bencode wire format (spec §6, and the grammar accepted by the
decoder): used to quantify over "buffers encoding a list/dictionary".
On integers and byte strings it coincides with `encode_int` /
`encode_bytes`. -/

mutual

/-- Wire encoding of a `DVal`. -/
def wireVal : DVal → List Nat
  | .int n => encodeInt n
  | .bytes bs => encodeBytes bs
  | .list items => 108 :: wireItems items ++ [101]
  | .dict es => 100 :: wireEntries es ++ [101]

/-- Concatenated wire encodings of list items. -/
def wireItems : List DVal → List Nat
  | [] => []
  | v :: vs => wireVal v ++ wireItems vs

/-- Concatenated wire encodings of dictionary entries (key then value). -/
def wireEntries : List (List Nat × DVal) → List Nat
  | [] => []
  | (k, v) :: es => encodeBytes k ++ wireVal v ++ wireEntries es

end

/-- Successive `decoded_dict[key] = value` insertions. -/
def dfold (acc : List (List Nat × DVal)) (es : List (List Nat × DVal)) :
    List (List Nat × DVal) :=
  es.foldl (fun d e => dictInsert d e.1 e.2) acc

mutual

/-- What the decoder rebuilds from `wireVal v`: identical to `v` except
that every dictionary is replayed through Python-dict insertion
(duplicate keys collapse, last write wins). -/
def decodedOf : DVal → DVal
  | .int n => .int n
  | .bytes bs => .bytes bs
  | .list items => .list (decodedOfList items)
  | .dict es => .dict (dfold [] (decodedOfEntries es))

/-- `decodedOf` mapped over list items. -/
def decodedOfList : List DVal → List DVal
  | [] => []
  | v :: vs => decodedOf v :: decodedOfList vs

/-- `decodedOf` mapped over entry values. -/
def decodedOfEntries : List (List Nat × DVal) → List (List Nat × DVal)
  | [] => []
  | (k, v) :: es => (k, decodedOf v) :: decodedOfEntries es

end

/-- Value of the last occurrence of key `k` in an entry sequence. -/
def lastVal (es : List (List Nat × DVal)) (k : List Nat) : Option DVal :=
  (es.reverse.find? (fun e => e.1 == k)).map (·.2)

/-- Big-endian decimal accumulation, the value recovered from a digit run. -/
def decAcc (acc : Nat) (l : List Nat) : Nat :=
  l.foldl (fun a d => a * 10 + (d - 48)) acc

/-- Exact-span decoding property of a wire-encoded value: with any bytes
appended, the matching sub-decoder returns the (dictionary-replayed)
value and the index of the last byte of its own encoding.  Trivial for
integers and byte strings, whose exact-span lemmas hold unconditionally. -/
def SpanP : DVal → Prop
  | .int _ => True
  | .bytes _ => True
  | .list items => ∀ (rest : List Nat) (fuel : Nat),
      2 * ((wireVal (.list items)).length + rest.length) + 1 ≤ fuel →
      decodeListF fuel (wireVal (.list items) ++ rest) =
        .ok (decodedOfList items, (wireVal (.list items)).length - 1)
  | .dict es => ∀ (rest : List Nat) (fuel : Nat),
      2 * ((wireVal (.dict es)).length + rest.length) + 1 ≤ fuel →
      decodeDictF fuel (wireVal (.dict es) ++ rest) =
        .ok (dfold [] (decodedOfEntries es), (wireVal (.dict es)).length - 1)

/-! Encoder sanity checks against `tests/test_encoder.py`. -/

example : encodeInt 42 = [105, 52, 50, 101] := rfl
example : encodeInt (-3) = [105, 45, 51, 101] := rfl
example : encodeBytes [115, 112, 97, 109] = [52, 58, 115, 112, 97, 109] := rfl
example : encodeStr [115, 112, 97, 109] = [52, 58, 115, 112, 97, 109] := rfl
example : encodeBool true = [105, 49, 101] := rfl
example : encodeBool false = [105, 48, 101] := rfl
-- encode(["spam", 42]) == b"l4:spami42ee"
example : encodeVal (.plist [.pstr [115, 112, 97, 109], .pint 42]) =
    .ok [108, 52, 58, 115, 112, 97, 109, 105, 52, 50, 101, 101] := by
  simp [encodeVal, encodeList, encItems]
  rfl
-- encode({"bar": b"spam", "foo": 42}) == b"d3:bar4:spam3:fooi42ee"
example : encodeVal (.pdict [(.pstr [98, 97, 114], .pbytes [115, 112, 97, 109]),
                             (.pstr [102, 111, 111], .pint 42)]) =
    .ok [100, 51, 58, 98, 97, 114, 52, 58, 115, 112, 97, 109,
         51, 58, 102, 111, 111, 105, 52, 50, 101, 101] := by
  simp [encodeVal, encodeDict, encEntries]
  rfl

/-! ## Lemmas: byte search and decimal digit strings -/

theorem bfind_lt {t : Nat} : ∀ {l : List Nat} {i : Nat},
    bfind t l = some i → i < l.length ∧ l[i]? = some t := by
  intro l
  induction l with
  | nil => intro i h; simp [bfind] at h
  | cons x xs ih =>
    intro i h
    by_cases hx : x = t
    · simp [bfind, hx] at h
      subst h
      simp [hx]
    · simp [bfind, hx] at h
      obtain ⟨j, hj, hij⟩ := h
      obtain ⟨h1, h2⟩ := ih hj
      subst hij
      refine ⟨by simpa using Nat.succ_lt_succ h1, by simpa using h2⟩

theorem bfind_append {t : Nat} : ∀ (l r : List Nat), (∀ x ∈ l, x ≠ t) →
    bfind t (l ++ t :: r) = some l.length := by
  intro l r
  induction l with
  | nil => intro _; simp [bfind]
  | cons x xs ih =>
    intro h
    have hx : x ≠ t := h x (by simp)
    simp only [List.cons_append, bfind, if_neg hx, List.append_eq]
    rw [ih (fun y hy => h y (by simp [hy]))]
    rfl

theorem isDigitB_iff {d : Nat} : isDigitB d = true ↔ 48 ≤ d ∧ d ≤ 57 := by
  simp [isDigitB]

theorem natToDecGo_digits : ∀ (fuel n : Nat), n < fuel →
    ∀ d ∈ natToDecGo fuel n, 48 ≤ d ∧ d ≤ 57 := by
  intro fuel
  induction fuel with
  | zero => intro n h; exact absurd h (Nat.not_lt_zero n)
  | succ f ih =>
    intro n h d hd
    by_cases h10 : n < 10
    · simp [natToDecGo, h10] at hd
      omega
    · have hdiv : n / 10 < n := Nat.div_lt_self (by omega) (by omega)
      simp only [natToDecGo, if_neg h10, List.mem_append, List.mem_singleton] at hd
      rcases hd with hd | hd
      · exact ih (n / 10) (by omega) d hd
      · have : n % 10 < 10 := Nat.mod_lt n (by omega)
        omega

theorem natToDecGo_head : ∀ (fuel n : Nat), n < fuel →
    ∃ d tl, natToDecGo fuel n = d :: tl ∧ 48 ≤ d ∧ d ≤ 57 ∧ (d = 48 → n = 0) := by
  intro fuel
  induction fuel with
  | zero => intro n h; exact absurd h (Nat.not_lt_zero n)
  | succ f ih =>
    intro n h
    by_cases h10 : n < 10
    · exact ⟨48 + n, [], by simp [natToDecGo, h10], by omega, by omega, by omega⟩
    · have hdiv : n / 10 < n := Nat.div_lt_self (by omega) (by omega)
      have hpos : 0 < n / 10 := Nat.div_pos (by omega) (by omega)
      obtain ⟨d, tl, heq, hd1, hd2, hd3⟩ := ih (n / 10) (by omega)
      refine ⟨d, tl ++ [48 + n % 10], ?_, hd1, hd2, ?_⟩
      · simp [natToDecGo, h10, heq]
      · intro h48
        exact absurd (hd3 h48) (by omega)

theorem natToDec_digits (n : Nat) : ∀ d ∈ natToDec n, 48 ≤ d ∧ d ≤ 57 :=
  natToDecGo_digits (n + 1) n (Nat.lt_succ_self n)

theorem natToDec_head (n : Nat) :
    ∃ d tl, natToDec n = d :: tl ∧ 48 ≤ d ∧ d ≤ 57 ∧ (d = 48 → n = 0) :=
  natToDecGo_head (n + 1) n (Nat.lt_succ_self n)

theorem natToDec_ne_nil (n : Nat) : natToDec n ≠ [] := by
  obtain ⟨d, tl, heq, -⟩ := natToDec_head n
  simp [heq]

theorem decAcc_append (acc : Nat) (l₁ l₂ : List Nat) :
    decAcc acc (l₁ ++ l₂) = decAcc (decAcc acc l₁) l₂ := by
  simp [decAcc]

theorem decAcc_natToDecGo : ∀ (fuel n acc : Nat), n < fuel →
    decAcc acc (natToDecGo fuel n) = acc * 10 ^ (natToDecGo fuel n).length + n := by
  intro fuel
  induction fuel with
  | zero => intro n acc h; exact absurd h (Nat.not_lt_zero n)
  | succ f ih =>
    intro n acc h
    by_cases h10 : n < 10
    · simp [natToDecGo, h10, decAcc]
    · have hdiv : n / 10 < n := Nat.div_lt_self (by omega) (by omega)
      simp only [natToDecGo, if_neg h10]
      rw [decAcc_append, ih (n / 10) acc (by omega)]
      have hmod := Nat.div_add_mod n 10
      simp only [decAcc, List.foldl_cons, List.foldl_nil, List.length_append,
        List.length_singleton, pow_succ]
      have h48 : 48 + n % 10 - 48 = n % 10 := by omega
      rw [h48, ← Nat.mul_assoc]
      omega

theorem decAcc_natToDec (n : Nat) : decAcc 0 (natToDec n) = n := by
  have := decAcc_natToDecGo (n + 1) n 0 (Nat.lt_succ_self n)
  simpa [natToDec] using this

/-! ## Lemmas: Python `int()` on digit strings -/

theorem dropWhile_eq_self {p : Nat → Bool} {l : List Nat}
    (h : ∀ x ∈ l, p x = false) : l.dropWhile p = l := by
  cases l with
  | nil => rfl
  | cons x xs => simp [List.dropWhile_cons, h x (by simp)]

theorem trimWS_eq_self {l : List Nat} (h : ∀ x ∈ l, isWS x = false) :
    trimWS l = l := by
  unfold trimWS
  rw [dropWhile_eq_self h, dropWhile_eq_self (by intro x hx; exact h x (by simpa using hx)),
    List.reverse_reverse]

theorem digit_not_ws {d : Nat} (h1 : 48 ≤ d) : isWS d = false := by
  simp [isWS]
  omega

theorem pyDigitsGo_digits : ∀ (l : List Nat) (acc : Nat),
    (∀ d ∈ l, 48 ≤ d ∧ d ≤ 57) → pyDigitsGo acc l = some (decAcc acc l) := by
  intro l
  induction l with
  | nil => intro acc _; simp [pyDigitsGo, decAcc]
  | cons d rest ih =>
    intro acc h
    have hd := h d (by simp)
    unfold pyDigitsGo
    rw [if_pos (isDigitB_iff.mpr hd)]
    rw [ih (acc * 10 + (d - 48)) (fun x hx => h x (by simp [hx]))]
    rfl

theorem pyDigits_digits {l : List Nat} (hne : l ≠ [])
    (h : ∀ d ∈ l, 48 ≤ d ∧ d ≤ 57) : pyDigits l = some (decAcc 0 l) := by
  obtain ⟨d, rest, rfl⟩ := List.exists_cons_of_ne_nil hne
  have hd := h d (by simp)
  rw [show pyDigits (d :: rest) =
    (if isDigitB d = true then pyDigitsGo (d - 48) rest else none) from rfl]
  rw [if_pos (isDigitB_iff.mpr hd)]
  rw [pyDigitsGo_digits rest (d - 48) (fun x hx => h x (by simp [hx]))]
  simp [decAcc]

theorem pyInt_digits {l : List Nat} (hne : l ≠ [])
    (h : ∀ d ∈ l, 48 ≤ d ∧ d ≤ 57) :
    pyInt l = some ((decAcc 0 l : Nat) : Int) := by
  obtain ⟨d, rest, rfl⟩ := List.exists_cons_of_ne_nil hne
  have hd := h d (by simp)
  have htrim : trimWS (d :: rest) = d :: rest :=
    trimWS_eq_self (fun x hx => digit_not_ws (h x hx).1)
  unfold pyInt
  rw [htrim]
  simp only [if_neg (by omega : ¬d = 45), if_neg (by omega : ¬d = 43)]
  rw [pyDigits_digits (by simp) h]
  rfl

theorem pyInt_natToDec (n : Nat) : pyInt (natToDec n) = some (n : Int) := by
  rw [pyInt_digits (natToDec_ne_nil n) (natToDec_digits n), decAcc_natToDec]

theorem pyInt_neg_natToDec (n : Nat) :
    pyInt (45 :: natToDec n) = some (-(n : Int)) := by
  have htrim : trimWS (45 :: natToDec n) = 45 :: natToDec n := by
    refine trimWS_eq_self ?_
    intro x hx
    rcases List.mem_cons.mp hx with hx | hx
    · subst hx; decide
    · exact digit_not_ws (natToDec_digits n x hx).1
  unfold pyInt
  rw [htrim]
  simp only [if_pos rfl]
  rw [pyDigits_digits (natToDec_ne_nil n) (natToDec_digits n), decAcc_natToDec]
  rfl

/-! ## Lemmas: exact-span decoding of wire-encoded integers and strings -/

theorem intDec_mem (n : Int) : ∀ d ∈ intDec n, d = 45 ∨ (48 ≤ d ∧ d ≤ 57) := by
  intro d hd
  unfold intDec at hd
  by_cases hn : n < 0
  · rw [if_pos hn] at hd
    rcases List.mem_cons.mp hd with hd | hd
    · exact Or.inl hd
    · exact Or.inr (natToDec_digits _ d hd)
  · rw [if_neg hn] at hd
    exact Or.inr (natToDec_digits _ d hd)

theorem intDec_ne_nil (n : Int) : intDec n ≠ [] := by
  unfold intDec
  by_cases hn : n < 0
  · simp [hn]
  · simp [hn, natToDec_ne_nil]

theorem encodeInt_length (n : Int) :
    (encodeInt n).length = (intDec n).length + 2 := by
  simp [encodeInt]

theorem encodeBytes_length (bs : List Nat) :
    (encodeBytes bs).length = (natToDec bs.length).length + 1 + bs.length := by
  simp [encodeBytes]
  omega

theorem optBeq_false {a b : Nat} (h : a ≠ b) :
    ((some a : Option Nat) == some b) = false := by
  simp [h]

/-- Decoding a wire-encoded integer followed by anything: exact value and
the index of its terminating `'e'`. -/
theorem decodeInt_encodeInt (n : Int) (rest : List Nat) :
    decodeInt (encodeInt n ++ rest) = .ok (n, (intDec n).length + 1) := by
  by_cases hn : n < 0
  · -- negative: the numeral is '-' followed by a nonzero-leading digit run
    have hm : (-n).toNat ≠ 0 := by omega
    obtain ⟨d, tl, hheq, hd1, hd2, hd3⟩ := natToDec_head (-n).toNat
    have hd48 : d ≠ 48 := fun h => hm (hd3 h)
    have hint : intDec n = 45 :: d :: tl := by
      unfold intDec
      rw [if_pos hn, hheq]
    have hpy : pyInt (45 :: d :: tl) = some n := by
      rw [← hheq, pyInt_neg_natToDec]
      congr 1
      omega
    rw [show encodeInt n ++ rest = (105 :: 45 :: d :: tl) ++ 101 :: rest by
        simp [encodeInt, hint], hint]
    have hfind_i : bfind 105 ((105 :: 45 :: d :: tl) ++ 101 :: rest) = some 0 := by
      simp [bfind]
    have hfind_e : bfind 101 ((105 :: 45 :: d :: tl) ++ 101 :: rest) =
        some (tl.length + 3) := by
      have hmem : ∀ x ∈ 105 :: 45 :: d :: tl, x ≠ 101 := by
        intro x hx
        simp only [List.mem_cons] at hx
        rcases hx with rfl | rfl | rfl | hx
        · omega
        · omega
        · omega
        · have := natToDec_digits (-n).toNat x (by rw [hheq]; simp [hx])
          omega
      simpa using bfind_append (105 :: 45 :: d :: tl) rest hmem
    unfold decodeInt
    simp only [hfind_i, hfind_e]
    rw [if_neg (by omega : ¬(0 + 1 = tl.length + 3))]
    rw [show ((105 :: 45 :: d :: tl) ++ 101 :: rest)[0 + 1]? = some 45 by
      rw [List.getElem?_append_left (by simp only [List.length_cons]; omega)]
      simp]
    rw [show ((105 :: 45 :: d :: tl) ++ 101 :: rest)[0 + 2]? = some d by
      rw [List.getElem?_append_left (by simp only [List.length_cons]; omega)]
      simp]
    rw [show (some (45 : Nat) == some 45 && some d == some 48) = false by
        rw [optBeq_false hd48, Bool.and_false]]
    rw [if_neg Bool.false_ne_true]
    rw [show ((some (45 : Nat) == some 48)) = false from rfl, Bool.false_and]
    rw [if_neg Bool.false_ne_true]
    rw [show ((105 :: 45 :: d :: tl) ++ 101 :: rest).drop (0 + 1) =
        (45 :: d :: tl) ++ 101 :: rest by simp]
    rw [show tl.length + 3 - (0 + 1) = (45 :: d :: tl).length by simp]
    rw [List.take_left, hpy]
    rfl
  · by_cases hz : n = 0
    · subst hz
      rfl
    · -- positive: the numeral is a nonzero-leading digit run
      have hm : n.toNat ≠ 0 := by omega
      obtain ⟨d, tl, hheq, hd1, hd2, hd3⟩ := natToDec_head n.toNat
      have hd48 : d ≠ 48 := fun h => hm (hd3 h)
      have hint : intDec n = d :: tl := by
        unfold intDec
        rw [if_neg hn, hheq]
      have hpy : pyInt (d :: tl) = some n := by
        rw [← hheq, pyInt_natToDec]
        congr 1
        omega
      rw [show encodeInt n ++ rest = (105 :: d :: tl) ++ 101 :: rest by
          simp [encodeInt, hint], hint]
      have hfind_i : bfind 105 ((105 :: d :: tl) ++ 101 :: rest) = some 0 := by
        simp [bfind]
      have hfind_e : bfind 101 ((105 :: d :: tl) ++ 101 :: rest) =
          some (tl.length + 2) := by
        have hmem : ∀ x ∈ 105 :: d :: tl, x ≠ 101 := by
          intro x hx
          simp only [List.mem_cons] at hx
          rcases hx with rfl | rfl | hx
          · omega
          · omega
          · have := natToDec_digits n.toNat x (by rw [hheq]; simp [hx])
            omega
        simpa using bfind_append (105 :: d :: tl) rest hmem
      unfold decodeInt
      simp only [hfind_i, hfind_e]
      rw [if_neg (by omega : ¬(0 + 1 = tl.length + 2))]
      rw [show ((105 :: d :: tl) ++ 101 :: rest)[0 + 1]? = some d by
        rw [List.getElem?_append_left (by simp only [List.length_cons]; omega)]
        simp]
      rw [show (some d == some (45 : Nat)) = false from optBeq_false (by omega),
        Bool.false_and]
      rw [if_neg Bool.false_ne_true]
      rw [show (some d == some (48 : Nat)) = false from optBeq_false hd48,
        Bool.false_and]
      rw [if_neg Bool.false_ne_true]
      rw [show ((105 :: d :: tl) ++ 101 :: rest).drop (0 + 1) =
          (d :: tl) ++ 101 :: rest by simp]
      rw [show tl.length + 2 - (0 + 1) = (d :: tl).length by simp]
      rw [List.take_left, hpy]
      rfl

/-- Decoding a wire-encoded byte string followed by anything: exact bytes
and the index of its last content byte (the colon when empty). -/
theorem decodeStr_encodeBytes (bs rest : List Nat) :
    decodeStr (encodeBytes bs ++ rest) =
      .ok (bs, (natToDec bs.length).length + bs.length) := by
  obtain ⟨d, tl, hheq, hd1, hd2, hd3⟩ := natToDec_head bs.length
  have hdata : encodeBytes bs ++ rest = (d :: tl) ++ 58 :: (bs ++ rest) := by
    simp [encodeBytes, hheq]
  rw [hdata, show natToDec bs.length = d :: tl from hheq]
  have hfind : bfind 58 ((d :: tl) ++ 58 :: (bs ++ rest)) = some (tl.length + 1) := by
    have hmem : ∀ x ∈ d :: tl, x ≠ 58 := by
      intro x hx
      have hdig : 48 ≤ x ∧ x ≤ 57 := by
        rw [← hheq] at hx
        exact natToDec_digits bs.length x hx
      omega
    simpa using bfind_append (d :: tl) (bs ++ rest) hmem
  unfold decodeStr
  simp only [hfind]
  rw [show ((d :: tl) ++ 58 :: (bs ++ rest)).take (tl.length + 1) = d :: tl by
      rw [show tl.length + 1 = (d :: tl).length by simp]
      exact List.take_left _ _]
  simp only [show pyInt (d :: tl) = some ((bs.length : Nat) : Int) by
    rw [← hheq]; exact pyInt_natToDec _]
  rw [if_neg (by omega : ¬((bs.length : Nat) : Int) < 0)]
  rw [show (((bs.length : Nat) : Int)).toNat = bs.length by omega]
  rw [show ((d :: tl) ++ 58 :: (bs ++ rest)).drop (tl.length + 1 + 1) = bs ++ rest by
      rw [show (d :: tl) ++ 58 :: (bs ++ rest) = ((d :: tl) ++ [58]) ++ (bs ++ rest) by
        simp]
      exact List.drop_left' (by simp)]
  rw [List.take_left, if_neg (lt_irrefl bs.length)]
  rfl

/-! ## Lemmas: wire-encoding structure -/

theorem drop_shift {data : List Nat} {pos : Nat} {W R : List Nat}
    (h : data.drop pos = W ++ R) : data.drop (pos + W.length) = R := by
  rw [← List.drop_drop, h, List.drop_left]

theorem getElem?_of_drop {data : List Nat} {pos : Nat} {W R : List Nat}
    (h : data.drop pos = W ++ R) {k : Nat} (hk : k < W.length) :
    data[pos + k]? = W[k]? := by
  have h2 : (data.drop pos)[k]? = W[k]? := by
    rw [h]
    exact List.getElem?_append_left hk
  rwa [List.getElem?_drop] at h2

theorem head_of_drop {data : List Nat} {pos : Nat} {W R : List Nat}
    (h : data.drop pos = W ++ R) (hW : 0 < W.length) :
    data[pos]? = W[0]? := by
  have h2 := getElem?_of_drop h hW
  rwa [Nat.add_zero] at h2

theorem wireVal_int (n : Int) : wireVal (.int n) = encodeInt n := by simp [wireVal]

theorem wireVal_bytes (bs : List Nat) : wireVal (.bytes bs) = encodeBytes bs := by
  simp [wireVal]

theorem wireVal_list (items : List DVal) :
    wireVal (.list items) = 108 :: wireItems items ++ [101] := by simp [wireVal]

theorem wireVal_dict (es : List (List Nat × DVal)) :
    wireVal (.dict es) = 100 :: wireEntries es ++ [101] := by simp [wireVal]

theorem wireItems_nil : wireItems [] = [] := by simp [wireItems]

theorem wireItems_cons (v : DVal) (vs : List DVal) :
    wireItems (v :: vs) = wireVal v ++ wireItems vs := by simp [wireItems]

theorem wireEntries_nil : wireEntries [] = [] := by simp [wireEntries]

theorem wireEntries_cons (k : List Nat) (v : DVal) (es : List (List Nat × DVal)) :
    wireEntries ((k, v) :: es) = encodeBytes k ++ wireVal v ++ wireEntries es := by
  simp [wireEntries]

theorem decodedOf_int (n : Int) : decodedOf (.int n) = .int n := by simp [decodedOf]

theorem decodedOf_bytes (bs : List Nat) : decodedOf (.bytes bs) = .bytes bs := by
  simp [decodedOf]

theorem decodedOf_list (items : List DVal) :
    decodedOf (.list items) = .list (decodedOfList items) := by simp [decodedOf]

theorem decodedOf_dict (es : List (List Nat × DVal)) :
    decodedOf (.dict es) = .dict (dfold [] (decodedOfEntries es)) := by
  simp [decodedOf]

theorem decodedOfList_nil : decodedOfList [] = [] := by simp [decodedOfList]

theorem decodedOfList_cons (v : DVal) (vs : List DVal) :
    decodedOfList (v :: vs) = decodedOf v :: decodedOfList vs := by
  simp [decodedOfList]

theorem decodedOfEntries_nil : decodedOfEntries [] = [] := by simp [decodedOfEntries]

theorem decodedOfEntries_cons (k : List Nat) (v : DVal)
    (es : List (List Nat × DVal)) :
    decodedOfEntries ((k, v) :: es) = (k, decodedOf v) :: decodedOfEntries es := by
  simp [decodedOfEntries]

theorem wireVal_len (v : DVal) : 2 ≤ (wireVal v).length := by
  cases v with
  | int n =>
    rw [wireVal_int, encodeInt_length]
    omega
  | bytes bs =>
    rw [wireVal_bytes, encodeBytes_length]
    have := List.length_pos.mpr (natToDec_ne_nil bs.length)
    omega
  | list items => rw [wireVal_list]; simp
  | dict es => rw [wireVal_dict]; simp

theorem mem_wireItems_le {v : DVal} : ∀ {items : List DVal}, v ∈ items →
    (wireVal v).length ≤ (wireItems items).length := by
  intro items
  induction items with
  | nil => intro h; simp at h
  | cons u us ih =>
    intro h
    rw [wireItems_cons, List.length_append]
    rcases List.mem_cons.mp h with rfl | h
    · omega
    · have := ih h
      omega

theorem mem_wireEntries_le {k : List Nat} {v : DVal} :
    ∀ {es : List (List Nat × DVal)}, (k, v) ∈ es →
    (wireVal v).length ≤ (wireEntries es).length := by
  intro es
  induction es with
  | nil => intro h; simp at h
  | cons e es ih =>
    intro h
    obtain ⟨k', v'⟩ := e
    rw [wireEntries_cons, List.length_append, List.length_append]
    rcases List.mem_cons.mp h with heq | h
    · obtain ⟨rfl, rfl⟩ := Prod.mk.injEq .. ▸ heq
      omega
    · have := ih h
      omega

theorem wireVal_head_int (n : Int) : (wireVal (.int n))[0]? = some 105 := by
  rw [wireVal_int]
  simp [encodeInt]

theorem wireVal_head_bytes (bs : List Nat) :
    ∃ d, (wireVal (.bytes bs))[0]? = some d ∧ 48 ≤ d ∧ d ≤ 57 := by
  obtain ⟨d, tl, hheq, h1, h2, -⟩ := natToDec_head bs.length
  refine ⟨d, ?_, h1, h2⟩
  rw [wireVal_bytes]
  simp [encodeBytes, hheq]

theorem wireVal_head_list (items : List DVal) :
    (wireVal (.list items))[0]? = some 108 := by
  rw [wireVal_list]
  simp

theorem wireVal_head_dict (es : List (List Nat × DVal)) :
    (wireVal (.dict es))[0]? = some 100 := by
  rw [wireVal_dict]
  simp

theorem optIsDigit_true {d : Nat} (h1 : 48 ≤ d) (h2 : d ≤ 57) :
    optIsDigit (some d) = true := by
  simp [optIsDigit, isDigitB]
  omega

/-! ## Lemmas: the container loops consume wire-encoded elements -/

/-- Running the `decode_list` loop over the wire encodings of `items`:
if the next byte is the terminating `'e'` the loop returns the decoded
items and its position; if the buffer ends instead, the loop fails with
the missing-end error. -/
theorem listLoop_consume :
    ∀ (items : List DVal), (∀ v ∈ items, SpanP v) →
      ∀ (data : List Nat) (pos : Nat) (acc : List DVal) (suffix : List Nat)
        (fuel : Nat),
      data.drop pos = wireItems items ++ suffix →
      data.length = pos + (wireItems items).length + suffix.length →
      2 * (data.length - pos) + 2 ≤ fuel →
      (suffix = [] ∨ suffix[0]? = some 101) →
      decodeListLoopF fuel data 0 pos acc =
        (if suffix[0]? == some 101 then
          .ok (acc ++ decodedOfList items, pos + (wireItems items).length)
        else .error .listEndNotFound) := by
  intro items
  induction items with
  | nil =>
    intro H data pos acc suffix fuel hdrop hlen hfuel hsuf
    rw [wireItems_nil] at hdrop hlen
    rw [List.nil_append] at hdrop
    obtain ⟨f, rfl⟩ : ∃ f, fuel = f + 1 := ⟨fuel - 1, by omega⟩
    rcases hsuf with rfl | hsuf
    · rw [show ((([] : List Nat))[0]? == some (101 : Nat)) = false from rfl,
        if_neg Bool.false_ne_true]
      unfold decodeListLoopF
      rw [if_neg (show ¬pos < data.length - 0 by simp at hlen; omega)]
    · have hchar : data[pos]? = some 101 := by
        have h2 : (data.drop pos)[0]? = some 101 := by rw [hdrop]; exact hsuf
        rwa [List.getElem?_drop, Nat.add_zero] at h2
      obtain ⟨hposlt, -⟩ := List.getElem?_eq_some_iff.mp hchar
      unfold decodeListLoopF
      rw [if_pos (show pos < data.length - 0 by omega)]
      rw [hchar]
      rw [show ((some (101 : Nat) == some 105)) = false from rfl, if_neg Bool.false_ne_true]
      rw [show optIsDigit (some 101) = false from rfl, if_neg Bool.false_ne_true]
      rw [show ((some (101 : Nat) == some 108)) = false from rfl, if_neg Bool.false_ne_true]
      rw [show ((some (101 : Nat) == some 100)) = false from rfl, if_neg Bool.false_ne_true]
      rw [show ((some (101 : Nat) == some 101)) = true from rfl, if_pos rfl]
      simp [hsuf, decodedOfList_nil, wireItems_nil]
  | cons v vs ih =>
    intro H data pos acc suffix fuel hdrop hlen hfuel hsuf
    rw [wireItems_cons] at hdrop hlen
    rw [List.append_assoc] at hdrop
    have hlen' : data.length =
        pos + (wireVal v).length + (wireItems vs).length + suffix.length := by
      rw [List.length_append] at hlen
      omega
    have hWv := wireVal_len v
    obtain ⟨f, rfl⟩ : ∃ f, fuel = f + 1 := ⟨fuel - 1, by omega⟩
    have hguard : pos < data.length - 0 := by omega
    have hdropshift : data.drop (pos + (wireVal v).length) = wireItems vs ++ suffix :=
      drop_shift hdrop
    have hchar : data[pos]? = (wireVal v)[0]? := head_of_drop hdrop (by omega)
    have hfuel2 : 2 * (data.length - (pos + (wireVal v).length)) + 2 ≤ f := by omega
    have hH : ∀ u ∈ vs, SpanP u := fun u hu => H u (by simp [hu])
    rw [decodedOfList_cons, wireItems_cons, List.length_append]
    rw [show acc ++ (decodedOf v :: decodedOfList vs) =
        (acc ++ [decodedOf v]) ++ decodedOfList vs by simp]
    rw [show pos + ((wireVal v).length + (wireItems vs).length) =
        pos + (wireVal v).length + (wireItems vs).length from (Nat.add_assoc _ _ _).symm]
    unfold decodeListLoopF
    rw [if_pos hguard]
    cases v with
    | int n =>
      rw [wireVal_head_int] at hchar
      rw [hchar]
      rw [show ((some (105 : Nat) == some 105)) = true from rfl, if_pos rfl]
      have hsub : decodeInt (data.drop pos) = .ok (n, (intDec n).length + 1) := by
        rw [hdrop, wireVal_int]
        exact decodeInt_encodeInt n _
      simp only [hsub]
      have hposeq : pos + ((intDec n).length + 1) + 1 =
          pos + (wireVal (.int n)).length := by
        rw [wireVal_int, encodeInt_length]
        omega
      rw [hposeq, decodedOf_int]
      exact ih hH data (pos + (wireVal (.int n)).length) (acc ++ [DVal.int n])
        suffix f hdropshift (by omega) hfuel2 hsuf
    | bytes bs =>
      obtain ⟨d, hd0, hd1, hd2⟩ := wireVal_head_bytes bs
      rw [hd0] at hchar
      rw [hchar]
      rw [optBeq_false (by omega : d ≠ 105), if_neg Bool.false_ne_true]
      rw [optIsDigit_true hd1 hd2, if_pos rfl]
      have hsub : decodeStr (data.drop pos) =
          .ok (bs, (natToDec bs.length).length + bs.length) := by
        rw [hdrop, wireVal_bytes]
        exact decodeStr_encodeBytes bs _
      simp only [hsub]
      have hposeq : pos + ((natToDec bs.length).length + bs.length) + 1 =
          pos + (wireVal (.bytes bs)).length := by
        rw [wireVal_bytes, encodeBytes_length]
        omega
      rw [hposeq, decodedOf_bytes]
      exact ih hH data (pos + (wireVal (.bytes bs)).length) (acc ++ [DVal.bytes bs])
        suffix f hdropshift (by omega) hfuel2 hsuf
    | list items2 =>
      rw [wireVal_head_list] at hchar
      rw [hchar]
      rw [show ((some (108 : Nat) == some 105)) = false from rfl, if_neg Bool.false_ne_true]
      rw [show optIsDigit (some 108) = false from rfl, if_neg Bool.false_ne_true]
      rw [show ((some (108 : Nat) == some 108)) = true from rfl, if_pos rfl]
      have hsub : decodeListF f (data.drop pos) =
          .ok (decodedOfList items2, (wireVal (.list items2)).length - 1) := by
        rw [hdrop]
        exact H (.list items2) (by simp) (wireItems vs ++ suffix) f (by
          rw [List.length_append]
          omega)
      simp only [hsub]
      have hposeq : pos + ((wireVal (.list items2)).length - 1) + 1 =
          pos + (wireVal (.list items2)).length := by
        have := wireVal_len (.list items2)
        omega
      rw [hposeq, decodedOf_list]
      exact ih hH data (pos + (wireVal (.list items2)).length)
        (acc ++ [DVal.list (decodedOfList items2)]) suffix f hdropshift
        (by omega) hfuel2 hsuf
    | dict es2 =>
      rw [wireVal_head_dict] at hchar
      rw [hchar]
      rw [show ((some (100 : Nat) == some 105)) = false from rfl, if_neg Bool.false_ne_true]
      rw [show optIsDigit (some 100) = false from rfl, if_neg Bool.false_ne_true]
      rw [show ((some (100 : Nat) == some 108)) = false from rfl, if_neg Bool.false_ne_true]
      rw [show ((some (100 : Nat) == some 100)) = true from rfl, if_pos rfl]
      have hsub : decodeDictF f (data.drop pos) =
          .ok (dfold [] (decodedOfEntries es2), (wireVal (.dict es2)).length - 1) := by
        rw [hdrop]
        exact H (.dict es2) (by simp) (wireItems vs ++ suffix) f (by
          rw [List.length_append]
          omega)
      simp only [hsub]
      have hposeq : pos + ((wireVal (.dict es2)).length - 1) + 1 =
          pos + (wireVal (.dict es2)).length := by
        have := wireVal_len (.dict es2)
        omega
      rw [hposeq, decodedOf_dict]
      exact ih hH data (pos + (wireVal (.dict es2)).length)
        (acc ++ [DVal.dict (dfold [] (decodedOfEntries es2))]) suffix f hdropshift
        (by omega) hfuel2 hsuf

theorem dfold_cons (acc : List (List Nat × DVal)) (k : List Nat) (v : DVal)
    (es : List (List Nat × DVal)) :
    dfold acc ((k, v) :: es) = dfold (dictInsert acc k v) es := rfl

theorem encodeBytes_len_pos (k : List Nat) : 2 ≤ (encodeBytes k).length := by
  rw [encodeBytes_length]
  have := List.length_pos.mpr (natToDec_ne_nil k.length)
  omega

/-- Running the `decode_dict` loop over the wire encodings of `es`:
keys decode through `decode_str`, values dispatch like list elements,
and each pair is written with Python-dict insertion. -/
theorem dictLoop_consume :
    ∀ (es : List (List Nat × DVal)), (∀ e ∈ es, SpanP e.2) →
      ∀ (data : List Nat) (pos : Nat) (acc : List (List Nat × DVal))
        (suffix : List Nat) (fuel : Nat),
      data.drop pos = wireEntries es ++ suffix →
      data.length = pos + (wireEntries es).length + suffix.length →
      2 * (data.length - pos) + 2 ≤ fuel →
      (suffix = [] ∨ suffix[0]? = some 101) →
      decodeDictLoopF fuel data 0 pos acc =
        (if suffix[0]? == some 101 then
          .ok (dfold acc (decodedOfEntries es), pos + (wireEntries es).length)
        else .error .dictEndNotFound) := by
  intro es
  induction es with
  | nil =>
    intro H data pos acc suffix fuel hdrop hlen hfuel hsuf
    rw [wireEntries_nil] at hdrop hlen
    rw [List.nil_append] at hdrop
    obtain ⟨f, rfl⟩ : ∃ f, fuel = f + 1 := ⟨fuel - 1, by omega⟩
    rcases hsuf with rfl | hsuf
    · rw [show ((([] : List Nat))[0]? == some (101 : Nat)) = false from rfl,
        if_neg Bool.false_ne_true]
      unfold decodeDictLoopF
      rw [if_neg (show ¬pos < data.length - 0 by simp at hlen; omega)]
    · have hchar : data[pos]? = some 101 := by
        have h2 : (data.drop pos)[0]? = some 101 := by rw [hdrop]; exact hsuf
        rwa [List.getElem?_drop, Nat.add_zero] at h2
      obtain ⟨hposlt, -⟩ := List.getElem?_eq_some_iff.mp hchar
      unfold decodeDictLoopF
      rw [if_pos (show pos < data.length - 0 by omega)]
      rw [hchar]
      rw [show ((some (101 : Nat) == some 101)) = true from rfl, if_pos rfl]
      simp [hsuf, decodedOfEntries_nil, dfold, wireEntries_nil]
  | cons e es ih =>
    obtain ⟨k, v⟩ := e
    intro H data pos acc suffix fuel hdrop hlen hfuel hsuf
    rw [wireEntries_cons] at hdrop hlen
    simp only [List.append_assoc] at hdrop
    have hlen' : data.length = pos + (encodeBytes k).length + (wireVal v).length +
        (wireEntries es).length + suffix.length := by
      rw [List.length_append, List.length_append] at hlen
      omega
    have hWv := wireVal_len v
    have hWk := encodeBytes_len_pos k
    obtain ⟨f, rfl⟩ : ∃ f, fuel = f + 1 := ⟨fuel - 1, by omega⟩
    have hguard : pos < data.length - 0 := by omega
    obtain ⟨d, tl, hheq, hd1, hd2, -⟩ := natToDec_head k.length
    have hd0 : (encodeBytes k)[0]? = some d := by
      simp [encodeBytes, hheq]
    have hchar : data[pos]? = some d := by
      rw [head_of_drop hdrop (by omega), hd0]
    have hdropshift1 : data.drop (pos + (encodeBytes k).length) =
        wireVal v ++ (wireEntries es ++ suffix) := drop_shift hdrop
    have hchar2 : data[pos + (encodeBytes k).length]? = (wireVal v)[0]? :=
      head_of_drop hdropshift1 (by omega)
    have hdropshift2 : data.drop (pos + (encodeBytes k).length + (wireVal v).length) =
        wireEntries es ++ suffix := drop_shift hdropshift1
    have hfuel2 : 2 * (data.length -
        (pos + (encodeBytes k).length + (wireVal v).length)) + 2 ≤ f := by omega
    have hH : ∀ u ∈ es, SpanP u.2 := fun u hu => H u (by simp [hu])
    rw [decodedOfEntries_cons, dfold_cons, wireEntries_cons,
      List.length_append, List.length_append]
    rw [show pos + ((encodeBytes k).length + (wireVal v).length +
        (wireEntries es).length) = pos + (encodeBytes k).length +
        (wireVal v).length + (wireEntries es).length by omega]
    unfold decodeDictLoopF
    rw [if_pos hguard]
    rw [hchar]
    rw [optBeq_false (by omega : d ≠ 101), if_neg Bool.false_ne_true]
    rw [optIsDigit_true hd1 hd2, Bool.not_true, if_neg Bool.false_ne_true]
    have hsubK : decodeStr (data.drop pos) =
        .ok (k, (natToDec k.length).length + k.length) := by
      rw [hdrop]
      exact decodeStr_encodeBytes k _
    simp only [hsubK]
    rw [show pos + ((natToDec k.length).length + k.length) + 1 =
        pos + (encodeBytes k).length by rw [encodeBytes_length]; omega]
    cases v with
    | int n =>
      rw [wireVal_head_int] at hchar2
      rw [hchar2]
      rw [show ((some (105 : Nat) == some 105)) = true from rfl, if_pos rfl]
      have hsubV : decodeInt (data.drop (pos + (encodeBytes k).length)) =
          .ok (n, (intDec n).length + 1) := by
        rw [hdropshift1, wireVal_int]
        exact decodeInt_encodeInt n _
      simp only [hsubV]
      rw [show pos + (encodeBytes k).length + ((intDec n).length + 1) + 1 =
          pos + (encodeBytes k).length + (wireVal (.int n)).length by
          rw [wireVal_int, encodeInt_length]; omega]
      rw [decodedOf_int]
      exact ih hH data (pos + (encodeBytes k).length + (wireVal (.int n)).length)
        (dictInsert acc k (DVal.int n)) suffix f hdropshift2 (by omega) hfuel2 hsuf
    | bytes bs =>
      obtain ⟨d2, hd0', hb1, hb2⟩ := wireVal_head_bytes bs
      rw [hd0'] at hchar2
      rw [hchar2]
      rw [optBeq_false (by omega : d2 ≠ 105), if_neg Bool.false_ne_true]
      rw [optIsDigit_true hb1 hb2, if_pos rfl]
      have hsubV : decodeStr (data.drop (pos + (encodeBytes k).length)) =
          .ok (bs, (natToDec bs.length).length + bs.length) := by
        rw [hdropshift1, wireVal_bytes]
        exact decodeStr_encodeBytes bs _
      simp only [hsubV]
      rw [show pos + (encodeBytes k).length + ((natToDec bs.length).length +
          bs.length) + 1 = pos + (encodeBytes k).length +
          (wireVal (.bytes bs)).length by
          rw [wireVal_bytes, encodeBytes_length bs]; omega]
      rw [decodedOf_bytes]
      exact ih hH data (pos + (encodeBytes k).length + (wireVal (.bytes bs)).length)
        (dictInsert acc k (DVal.bytes bs)) suffix f hdropshift2 (by omega) hfuel2 hsuf
    | list items2 =>
      rw [wireVal_head_list] at hchar2
      rw [hchar2]
      rw [show ((some (108 : Nat) == some 105)) = false from rfl, if_neg Bool.false_ne_true]
      rw [show optIsDigit (some 108) = false from rfl, if_neg Bool.false_ne_true]
      rw [show ((some (108 : Nat) == some 108)) = true from rfl, if_pos rfl]
      have hsubV : decodeListF f (data.drop (pos + (encodeBytes k).length)) =
          .ok (decodedOfList items2, (wireVal (.list items2)).length - 1) := by
        rw [hdropshift1]
        exact H (k, .list items2) (by simp) (wireEntries es ++ suffix) f (by
          rw [List.length_append]
          omega)
      simp only [hsubV]
      rw [show pos + (encodeBytes k).length + ((wireVal (.list items2)).length - 1) +
          1 = pos + (encodeBytes k).length + (wireVal (.list items2)).length by
          have := wireVal_len (.list items2)
          omega]
      rw [decodedOf_list]
      exact ih hH data
        (pos + (encodeBytes k).length + (wireVal (.list items2)).length)
        (dictInsert acc k (DVal.list (decodedOfList items2))) suffix f hdropshift2
        (by omega) hfuel2 hsuf
    | dict es2 =>
      rw [wireVal_head_dict] at hchar2
      rw [hchar2]
      rw [show ((some (100 : Nat) == some 105)) = false from rfl, if_neg Bool.false_ne_true]
      rw [show optIsDigit (some 100) = false from rfl, if_neg Bool.false_ne_true]
      rw [show ((some (100 : Nat) == some 108)) = false from rfl, if_neg Bool.false_ne_true]
      rw [show ((some (100 : Nat) == some 100)) = true from rfl, if_pos rfl]
      have hsubV : decodeDictF f (data.drop (pos + (encodeBytes k).length)) =
          .ok (dfold [] (decodedOfEntries es2), (wireVal (.dict es2)).length - 1) := by
        rw [hdropshift1]
        exact H (k, .dict es2) (by simp) (wireEntries es ++ suffix) f (by
          rw [List.length_append]
          omega)
      simp only [hsubV]
      rw [show pos + (encodeBytes k).length + ((wireVal (.dict es2)).length - 1) +
          1 = pos + (encodeBytes k).length + (wireVal (.dict es2)).length by
          have := wireVal_len (.dict es2)
          omega]
      rw [decodedOf_dict]
      exact ih hH data
        (pos + (encodeBytes k).length + (wireVal (.dict es2)).length)
        (dictInsert acc k (DVal.dict (dfold [] (decodedOfEntries es2)))) suffix f
        hdropshift2 (by omega) hfuel2 hsuf

/-- Every decoded value has the exact-span property: strong induction on
the length of its wire encoding, members of a container being strictly
shorter than the container. -/
theorem spanP_all : ∀ v : DVal, SpanP v := by
  suffices h : ∀ N (v : DVal), (wireVal v).length ≤ N → SpanP v by
    exact fun v => h (wireVal v).length v le_rfl
  intro N
  induction N using Nat.strong_induction_on with
  | _ N ih =>
    intro v hleN
    cases v with
    | int n => trivial
    | bytes bs => trivial
    | list items =>
      intro rest fuel hfuel
      have hWlen : (wireVal (.list items)).length = (wireItems items).length + 2 := by
        rw [wireVal_list]
        simp
      have hH : ∀ u ∈ items, SpanP u := by
        intro u hu
        have h1 : (wireVal u).length ≤ (wireItems items).length := mem_wireItems_le hu
        exact ih (wireVal u).length (by omega) u le_rfl
      obtain ⟨f, rfl⟩ : ∃ f, fuel = f + 1 := ⟨fuel - 1, by omega⟩
      rw [show wireVal (.list items) ++ rest =
          108 :: (wireItems items ++ (101 :: rest)) by rw [wireVal_list]; simp]
      unfold decodeListF
      rw [show bfind 108 (108 :: (wireItems items ++ (101 :: rest))) = some 0 by
        simp [bfind]]
      simp only [Nat.zero_add]
      rw [listLoop_consume items hH (108 :: (wireItems items ++ (101 :: rest))) 1 []
        (101 :: rest) f (by simp)
        (by simp only [List.length_cons, List.length_append]; omega)
        (by simp only [List.length_cons, List.length_append]
            rw [wireVal_list] at hfuel
            simp only [List.length_cons, List.length_append,
              List.length_singleton] at hfuel
            omega)
        (Or.inr (by simp))]
      rw [show (((101 :: rest : List Nat))[0]? == some (101 : Nat)) = true by simp,
        if_pos rfl]
      rw [List.nil_append]
      rw [show (1 : Nat) + (wireItems items).length =
          (wireVal (.list items)).length - 1 by omega]
    | dict es =>
      intro rest fuel hfuel
      have hWlen : (wireVal (.dict es)).length = (wireEntries es).length + 2 := by
        rw [wireVal_dict]
        simp
      have hH : ∀ e ∈ es, SpanP e.2 := by
        intro e he
        obtain ⟨k, u⟩ := e
        have h1 : (wireVal u).length ≤ (wireEntries es).length := mem_wireEntries_le he
        exact ih (wireVal u).length (by omega) u le_rfl
      obtain ⟨f, rfl⟩ : ∃ f, fuel = f + 1 := ⟨fuel - 1, by omega⟩
      rw [show wireVal (.dict es) ++ rest =
          100 :: (wireEntries es ++ (101 :: rest)) by rw [wireVal_dict]; simp]
      unfold decodeDictF
      rw [show bfind 100 (100 :: (wireEntries es ++ (101 :: rest))) = some 0 by
        simp [bfind]]
      simp only [Nat.zero_add]
      rw [dictLoop_consume es hH (100 :: (wireEntries es ++ (101 :: rest))) 1 []
        (101 :: rest) f (by simp)
        (by simp only [List.length_cons, List.length_append]; omega)
        (by simp only [List.length_cons, List.length_append]
            rw [wireVal_dict] at hfuel
            simp only [List.length_cons, List.length_append,
              List.length_singleton] at hfuel
            omega)
        (Or.inr (by simp))]
      rw [show (((101 :: rest : List Nat))[0]? == some (101 : Nat)) = true by simp,
        if_pos rfl]
      rw [show (1 : Nat) + (wireEntries es).length =
          (wireVal (.dict es)).length - 1 by omega]

/-! ## Lemmas: position returned by each sub-decoder on success -/

theorem decodeInt_ok {data : List Nat} {n : Int} {i : Nat}
    (h : decodeInt data = .ok (n, i)) : i < data.length ∧ data[i]? = some 101 := by
  unfold decodeInt at h
  cases hfi : bfind 105 data with
  | none => simp only [hfi] at h; simp at h
  | some start =>
    simp only [hfi] at h
    cases hfe : bfind 101 data with
    | none => simp only [hfe] at h; simp at h
    | some endp =>
      simp only [hfe] at h
      split at h
      · simp at h
      split at h
      · simp at h
      split at h
      · simp at h
      split at h
      · simp at h
      simp only [Except.ok.injEq, Prod.mk.injEq] at h
      obtain ⟨-, rfl⟩ := h
      exact bfind_lt hfe

theorem decodeStr_ok {data s : List Nat} {i : Nat}
    (h : decodeStr data = .ok (s, i)) :
    ∃ c, bfind 58 data = some c ∧ i = c + s.length ∧ i < data.length ∧
      (s = [] → i = c) ∧ (s ≠ [] → data[i]? = s.getLast?) := by
  unfold decodeStr at h
  cases hfc : bfind 58 data with
  | none => simp only [hfc] at h; simp at h
  | some colon =>
    simp only [hfc] at h
    cases hpy : pyInt (data.take colon) with
    | none => simp only [hpy] at h; simp at h
    | some len =>
      simp only [hpy] at h
      split at h
      · simp at h
      split at h
      · simp at h
      rename_i hneg hlt
      simp only [Except.ok.injEq, Prod.mk.injEq] at h
      obtain ⟨hs, hi⟩ := h
      subst hs
      subst hi
      obtain ⟨hclt, -⟩ := bfind_lt hfc
      have hslen : ((data.drop (colon+1)).take len.toNat).length = len.toNat := by
        rw [List.length_take] at hlt ⊢
        omega
      refine ⟨colon, rfl, by rw [hslen], ?_, ?_, ?_⟩
      · by_cases hz : len.toNat = 0
        · omega
        · have hdl : len.toNat ≤ data.length - (colon + 1) := by
            rw [List.length_take, List.length_drop] at hslen
            omega
          omega
      · intro hse
        have h0 : len.toNat = 0 := by
          have := congrArg List.length hse
          simp only [List.length_nil] at this
          omega
        omega
      · intro hne
        have hlt0 : 0 < len.toNat := by
          rcases Nat.eq_zero_or_pos len.toNat with hz | hp
          · exact absurd (by rw [hz]; rfl :
              (data.drop (colon+1)).take len.toNat = []) hne
          · exact hp
        rw [List.getLast?_eq_getElem?, hslen]
        rw [List.getElem?_take_of_lt (by omega), List.getElem?_drop]
        congr 1
        omega

theorem decodeListLoopF_ok : ∀ (fuel : Nat) (data : List Nat) (start pos : Nat)
    (acc l : List DVal) (i : Nat),
    decodeListLoopF fuel data start pos acc = .ok (l, i) →
    i < data.length ∧ data[i]? = some 101 := by
  intro fuel
  induction fuel with
  | zero => intro data start pos acc l i h; simp [decodeListLoopF] at h
  | succ f ih =>
    intro data start pos acc l i h
    unfold decodeListLoopF at h
    split at h
    · split at h
      · split at h
        · simp at h
        · exact ih _ _ _ _ _ _ h
      · split at h
        · split at h
          · simp at h
          · exact ih _ _ _ _ _ _ h
        · split at h
          · split at h
            · simp at h
            · exact ih _ _ _ _ _ _ h
          · split at h
            · split at h
              · simp at h
              · exact ih _ _ _ _ _ _ h
            · split at h
              · rename_i hchar
                have hc : data[pos]? = some 101 := by rwa [beq_iff_eq] at hchar
                obtain ⟨hlt, -⟩ := List.getElem?_eq_some_iff.mp hc
                simp only [Except.ok.injEq, Prod.mk.injEq] at h
                obtain ⟨-, rfl⟩ := h
                exact ⟨hlt, hc⟩
              · simp at h
    · simp at h

theorem decodeListF_ok (fuel : Nat) (data : List Nat) (l : List DVal) (i : Nat)
    (h : decodeListF fuel data = .ok (l, i)) :
    i < data.length ∧ data[i]? = some 101 := by
  cases fuel with
  | zero => simp [decodeListF] at h
  | succ f =>
    unfold decodeListF at h
    split at h
    · simp at h
    · exact decodeListLoopF_ok _ _ _ _ _ _ _ h

theorem decodeDictLoopF_ok : ∀ (fuel : Nat) (data : List Nat) (start pos : Nat)
    (acc d : List (List Nat × DVal)) (i : Nat),
    decodeDictLoopF fuel data start pos acc = .ok (d, i) →
    i < data.length ∧ data[i]? = some 101 := by
  intro fuel
  induction fuel with
  | zero => intro data start pos acc d i h; simp [decodeDictLoopF] at h
  | succ f ih =>
    intro data start pos acc d i h
    unfold decodeDictLoopF at h
    split at h
    · split at h
      · rename_i hchar
        have hc : data[pos]? = some 101 := by rwa [beq_iff_eq] at hchar
        obtain ⟨hlt, -⟩ := List.getElem?_eq_some_iff.mp hc
        simp only [Except.ok.injEq, Prod.mk.injEq] at h
        obtain ⟨-, rfl⟩ := h
        exact ⟨hlt, hc⟩
      · split at h
        · simp at h
        · split at h
          · simp at h
          · split at h
            · split at h
              · simp at h
              · exact ih _ _ _ _ _ _ h
            · split at h
              · split at h
                · simp at h
                · exact ih _ _ _ _ _ _ h
              · split at h
                · split at h
                  · simp at h
                  · exact ih _ _ _ _ _ _ h
                · split at h
                  · split at h
                    · simp at h
                    · exact ih _ _ _ _ _ _ h
                  · simp at h
    · simp at h

theorem decodeDictF_ok (fuel : Nat) (data : List Nat)
    (d : List (List Nat × DVal)) (i : Nat)
    (h : decodeDictF fuel data = .ok (d, i)) :
    i < data.length ∧ data[i]? = some 101 := by
  cases fuel with
  | zero => simp [decodeDictF] at h
  | succ f =>
    unfold decodeDictF at h
    split at h
    · simp at h
    · exact decodeDictLoopF_ok _ _ _ _ _ _ _ h

/-! ## Claim theorems (part 1) -/

/-- C1: the round-trip `decode(encode(v)) == v` for canonical Values fails
at the canonical Value `[[42]]`: `Encoder.encode` dispatches a list to
`encode_list`, whose item loop has no list branch, so encoding raises
`UnsupportedType` and the round trip never even produces bytes. -/
theorem c1_roundtrip_fails_on_nested_list :
    encodeVal (.plist [.plist [.pint 42]]) = .error .unsupportedType := by
  simp [encodeVal, encodeList, encItems, Except.map]

/-- C2: `encode_list` applied to `[[]]` — a list whose only element is a
(supported-variant) list — fails with `UnsupportedType` instead of
encoding the nested list, because the item loop lacks a list branch. -/
theorem c2_encode_list_rejects_nested_list :
    encodeList [.plist []] = .error .unsupportedType := by
  simp [encodeList, encItems, Except.map]

/-- C3: `encode_str` on the one-character string `"é"` (code point 233)
emits the length prefix `1` (the character count) followed by the TWO
UTF-8 payload bytes `0xC3 0xA9`, so the prefix does not equal the number
of bytes after the colon; the repository's own decoder then mis-reads
the result as the single byte `0xC3`. -/
theorem c3_encode_str_uses_char_count :
    encodeStr [233] = [49, 58, 195, 169] ∧
    (utf8Str [233]).length = 2 ∧
    decodeStr (encodeStr [233]) = .ok ([195], 2) :=
  ⟨rfl, rfl, rfl⟩

/-- C4 (counterexample): the claim's first conjunct is false —
`decode_int(b"i0e")` does not return `(0, 3)`; the second component is
the index of the terminating `'e'`, which is `2`. -/
theorem c4_counterexample :
    ¬(decodeInt [105, 48, 101] = .ok (0, 3) ∧
      decodeInt [105, 45, 49, 50, 101] = .ok (-12, 4)) := by
  intro h
  have h1 : (Except.ok ((0 : Int), (2 : Nat)) : Except Err (Int × Nat)) =
      Except.ok (0, 3) := h.1
  simp at h1

/-- C4 (amended): `decode_int(b"i0e") == (0, 2)` — the index of the
terminating `'e'` — and `decode_int(b"i-12e") == (-12, 4)`. -/
theorem c4_decode_int_examples :
    decodeInt [105, 48, 101] = .ok (0, 2) ∧
    decodeInt [105, 45, 49, 50, 101] = .ok (-12, 4) :=
  ⟨rfl, rfl⟩

/-- C9: the decoder accepts non-canonical numerals the encoder never
produces: `decode(b"i+42e") == 42` and `decode(b"04:spam") == b"spam"`,
because the numeral spans go through Python's lenient `int()`. -/
theorem c9_lenient_numerals :
    pyDecode [105, 43, 52, 50, 101] = .ok (.int 42) ∧
    pyDecode [48, 52, 58, 115, 112, 97, 109] = .ok (.bytes [115, 112, 97, 109]) :=
  ⟨rfl, rfl⟩

/-- C10: `decode(b"")` reports the unrecognized-leading-byte error: the
one-byte slice `data[0:1]` is empty, matches no dispatch case, and the
`else` branch raises `BencodeError` (InvalidFormat) rather than crashing. -/
theorem c10_decode_empty_is_invalid_format :
    pyDecode [] = .error (.invalidFormat none) := rfl

/-! ## Claim theorems (part 2) -/

/-- C5: on every input where it succeeds, each sub-decoder returns as the
second component the absolute index of the last byte it consumed: for
`decode_int`, `decode_list` and `decode_dict` the byte at that index is
the terminating `'e'` (byte 101) and lies inside the buffer; for
`decode_str` the index is `colon + length` — the last content byte when
the string is nonempty, the colon itself for a zero-length string — so a
parent can resume scanning at `index + 1`. -/
theorem c5_subdecoders_return_last_index :
    (∀ (data : List Nat) (n : Int) (i : Nat), decodeInt data = .ok (n, i) →
      i < data.length ∧ data[i]? = some 101) ∧
    (∀ (data s : List Nat) (i : Nat), decodeStr data = .ok (s, i) →
      ∃ c, bfind 58 data = some c ∧ i = c + s.length ∧ i < data.length ∧
        (s = [] → i = c) ∧ (s ≠ [] → data[i]? = s.getLast?)) ∧
    (∀ (data : List Nat) (l : List DVal) (i : Nat), decodeList data = .ok (l, i) →
      i < data.length ∧ data[i]? = some 101) ∧
    (∀ (data : List Nat) (d : List (List Nat × DVal)) (i : Nat),
      decodeDict data = .ok (d, i) → i < data.length ∧ data[i]? = some 101) := by
  refine ⟨fun data n i h => decodeInt_ok h, fun data s i h => decodeStr_ok h,
    fun data l i h => ?_, fun data d i h => ?_⟩
  · exact decodeListF_ok _ _ _ _ h
  · exact decodeDictF_ok _ _ _ _ h

/-- C5 witness: concrete successful runs of all four sub-decoders. -/
theorem c5_witness :
    (decodeInt [105, 52, 50, 101] = .ok (42, 3) ∧
      3 < 4 ∧ ([105, 52, 50, 101] : List Nat)[3]? = some 101) ∧
    (decodeStr [48, 58] = .ok ([], 1) ∧
      ∃ c, bfind 58 [48, 58] = some c ∧ 1 = c + ([] : List Nat).length ∧
        1 < ([48, 58] : List Nat).length ∧ (([] : List Nat) = [] → 1 = c) ∧
        (([] : List Nat) ≠ [] →
          ([48, 58] : List Nat)[1]? = ([] : List Nat).getLast?)) ∧
    (decodeList [108, 101] = .ok ([], 1) ∧
      1 < 2 ∧ ([108, 101] : List Nat)[1]? = some 101) ∧
    (decodeDict [100, 101] = .ok ([], 1) ∧
      1 < 2 ∧ ([100, 101] : List Nat)[1]? = some 101) := by
  refine ⟨⟨rfl, ?_⟩, ⟨rfl, ?_⟩, ⟨rfl, ?_⟩, ⟨rfl, ?_⟩⟩
  · exact c5_subdecoders_return_last_index.1 [105, 52, 50, 101] 42 3 rfl
  · exact c5_subdecoders_return_last_index.2.1 [48, 58] [] 1 rfl
  · exact c5_subdecoders_return_last_index.2.2.1 [108, 101] [] 1 rfl
  · exact c5_subdecoders_return_last_index.2.2.2 [100, 101] [] 1 rfl

/-- C6: for every buffer that is the wire encoding of a list or
dictionary, the container decoder consumes its own terminating `'e'`
(returning its index), and on the same buffer with that final `'e'`
removed it fails with the missing-end error instead of returning a
truncated container. -/
theorem c6_containers_require_end_marker :
    (∀ items : List DVal,
      decodeList (wireVal (.list items)) =
        .ok (decodedOfList items, (wireVal (.list items)).length - 1) ∧
      decodeList ((wireVal (.list items)).dropLast) = .error .listEndNotFound) ∧
    (∀ es : List (List Nat × DVal),
      decodeDict (wireVal (.dict es)) =
        .ok (dfold [] (decodedOfEntries es), (wireVal (.dict es)).length - 1) ∧
      decodeDict ((wireVal (.dict es)).dropLast) = .error .dictEndNotFound) := by
  constructor
  · intro items
    constructor
    · have hs := spanP_all (.list items) []
        (2 * (wireVal (.list items)).length + 1) (by simp)
      rw [List.append_nil] at hs
      exact hs
    · have hdl : (wireVal (.list items)).dropLast = 108 :: wireItems items := by
        rw [wireVal_list, show (108 :: wireItems items ++ [101] : List Nat) =
          (108 :: wireItems items) ++ [101] by simp, List.dropLast_concat]
      rw [hdl]
      show decodeListF (2 * (108 :: wireItems items).length + 1)
        (108 :: wireItems items) = _
      unfold decodeListF
      rw [show bfind 108 (108 :: wireItems items) = some 0 by simp [bfind]]
      simp only [Nat.zero_add]
      rw [listLoop_consume items (fun u _ => spanP_all u) (108 :: wireItems items)
        1 [] [] (2 * (108 :: wireItems items).length) (by simp)
        (by simp only [List.length_cons, List.length_nil]; omega)
        (by simp only [List.length_cons]; omega)
        (Or.inl rfl)]
      rw [show (([] : List Nat)[0]? == some (101 : Nat)) = false from rfl,
        if_neg Bool.false_ne_true]
  · intro es
    constructor
    · have hs := spanP_all (.dict es) []
        (2 * (wireVal (.dict es)).length + 1) (by simp)
      rw [List.append_nil] at hs
      exact hs
    · have hdl : (wireVal (.dict es)).dropLast = 100 :: wireEntries es := by
        rw [wireVal_dict, show (100 :: wireEntries es ++ [101] : List Nat) =
          (100 :: wireEntries es) ++ [101] by simp, List.dropLast_concat]
      rw [hdl]
      show decodeDictF (2 * (100 :: wireEntries es).length + 1)
        (100 :: wireEntries es) = _
      unfold decodeDictF
      rw [show bfind 100 (100 :: wireEntries es) = some 0 by simp [bfind]]
      simp only [Nat.zero_add]
      rw [dictLoop_consume es (fun u _ => spanP_all u.2) (100 :: wireEntries es)
        1 [] [] (2 * (100 :: wireEntries es).length) (by simp)
        (by simp only [List.length_cons, List.length_nil]; omega)
        (by simp only [List.length_cons]; omega)
        (Or.inl rfl)]
      rw [show (([] : List Nat)[0]? == some (101 : Nat)) = false from rfl,
        if_neg Bool.false_ne_true]

/-- C7: `decode_int` rejects the literal numeral `-0` with the
negative-zero error; it rejects a leading `'0'` followed by further
digits with the leading-zeros error; and the single-character numeral
`"0"` decodes successfully (to `(0, 2)`, the index of its `'e'`). -/
theorem c7_zero_numerals :
    decodeInt [105, 45, 48, 101] = .error .negativeZero ∧
    (∀ ds : List Nat, ds ≠ [] → (∀ d ∈ ds, 48 ≤ d ∧ d ≤ 57) →
      decodeInt (105 :: 48 :: ds ++ [101]) = .error .leadingZeros) ∧
    decodeInt [105, 48, 101] = .ok (0, 2) := by
  refine ⟨rfl, ?_, rfl⟩
  intro ds hne hds
  rw [show (105 :: 48 :: ds ++ [101] : List Nat) =
    (105 :: 48 :: ds) ++ 101 :: [] by simp]
  have hfi : bfind 105 ((105 :: 48 :: ds) ++ 101 :: []) = some 0 := by
    simp [bfind]
  have hfe : bfind 101 ((105 :: 48 :: ds) ++ 101 :: []) = some (ds.length + 2) := by
    have hmem : ∀ x ∈ 105 :: 48 :: ds, x ≠ 101 := by
      intro x hx
      simp only [List.mem_cons] at hx
      rcases hx with rfl | rfl | hx
      · omega
      · omega
      · have := hds x hx
        omega
    simpa using bfind_append (105 :: 48 :: ds) [] hmem
  unfold decodeInt
  simp only [hfi, hfe]
  rw [if_neg (by omega : ¬(0 + 1 = ds.length + 2))]
  rw [show ((105 :: 48 :: ds) ++ 101 :: [])[0 + 1]? = some 48 by
    rw [List.getElem?_append_left (by simp only [List.length_cons]; omega)]
    simp]
  rw [show (some (48 : Nat) == some 45) = false from rfl, Bool.false_and,
    if_neg Bool.false_ne_true]
  rw [show (some (48 : Nat) == some 48) = true from rfl, Bool.true_and]
  rw [show ((0 + 2 : Nat) != ds.length + 2) = true by
    have hl : 0 < ds.length := List.length_pos.mpr hne
    simp only [bne_iff_ne, ne_eq]
    omega]
  rw [if_pos rfl]

/-- C7 witness: the numeral `01` is rejected with the leading-zeros error. -/
theorem c7_witness :
    (([49] : List Nat) ≠ [] ∧ (∀ d ∈ ([49] : List Nat), 48 ≤ d ∧ d ≤ 57)) ∧
    decodeInt (105 :: 48 :: [49] ++ [101]) = .error .leadingZeros :=
  ⟨⟨by decide, by decide⟩,
    c7_zero_numerals.2.1 [49] (by decide) (by decide)⟩

/-! ## Lemmas: Python-dict insertion and lookup -/

theorem listBeq_true {a b : List Nat} (h : a = b) : (a == b) = true := by simp [h]

theorem listBeq_false {a b : List Nat} (h : a ≠ b) : (a == b) = false := by simp [h]

theorem dictLookup_cons (e : List Nat × DVal) (tl : List (List Nat × DVal))
    (k : List Nat) :
    dictLookup (e :: tl) k = if e.1 == k then some e.2 else dictLookup tl k := by
  by_cases hp : e.1 = k
  · simp [dictLookup, listBeq_true hp]
  · simp [dictLookup, listBeq_false hp]

theorem dictLookup_map_ne {k0 : List Nat} {v0 : DVal} {k : List Nat} (hk : k ≠ k0) :
    ∀ d : List (List Nat × DVal),
    dictLookup (d.map (fun e => if e.1 == k0 then (e.1, v0) else e)) k =
      dictLookup d k := by
  intro d
  induction d with
  | nil => rfl
  | cons e tl ih =>
    simp only [List.map_cons]
    rw [dictLookup_cons, dictLookup_cons]
    have h1 : ((if e.1 == k0 then (e.1, v0) else e).1) = e.1 := by
      by_cases he : e.1 = k0
      · rw [if_pos (listBeq_true he)]
      · rw [if_neg (by rw [listBeq_false he]; exact Bool.false_ne_true)]
    rw [h1]
    by_cases hek : e.1 = k
    · rw [if_pos (listBeq_true hek), if_pos (listBeq_true hek)]
      have h2 : (if e.1 == k0 then (e.1, v0) else e).2 = e.2 := by
        by_cases he : e.1 = k0
        · exact absurd (hek ▸ he) hk
        · rw [if_neg (by rw [listBeq_false he]; exact Bool.false_ne_true)]
      rw [h2]
    · rw [if_neg (by rw [listBeq_false hek]; exact Bool.false_ne_true),
        if_neg (by rw [listBeq_false hek]; exact Bool.false_ne_true)]
      exact ih

theorem dictLookup_map_self {k0 : List Nat} {v0 : DVal} :
    ∀ d : List (List Nat × DVal), (d.any (fun e => e.1 == k0)) = true →
    dictLookup (d.map (fun e => if e.1 == k0 then (e.1, v0) else e)) k0 =
      some v0 := by
  intro d
  induction d with
  | nil => intro h; simp at h
  | cons e tl ih =>
    intro hany
    simp only [List.map_cons]
    by_cases he : e.1 = k0
    · have h1 : (if e.1 == k0 then (e.1, v0) else e) = (e.1, v0) := by
        rw [if_pos (listBeq_true he)]
      rw [h1, dictLookup_cons, if_pos (listBeq_true he)]
    · have h1 : (if e.1 == k0 then (e.1, v0) else e) = e := by
        rw [if_neg (by rw [listBeq_false he]; exact Bool.false_ne_true)]
      rw [h1, dictLookup_cons,
        if_neg (by rw [listBeq_false he]; exact Bool.false_ne_true)]
      apply ih
      simp only [List.any_cons] at hany
      rw [listBeq_false he] at hany
      simpa using hany

/-- `decoded_dict[key] = value` then lookup: the inserted key now maps to
the new value, every other key is untouched. -/
theorem dictLookup_insert (d : List (List Nat × DVal)) (k0 : List Nat) (v0 : DVal)
    (k : List Nat) :
    dictLookup (dictInsert d k0 v0) k =
      if k = k0 then some v0 else dictLookup d k := by
  by_cases hany : (d.any (fun e => e.1 == k0)) = true
  · rw [show dictInsert d k0 v0 =
      d.map (fun e => if e.1 == k0 then (e.1, v0) else e) by
      unfold dictInsert; rw [if_pos hany]]
    by_cases hk : k = k0
    · rw [if_pos hk, hk]
      exact dictLookup_map_self d hany
    · rw [if_neg hk]
      exact dictLookup_map_ne hk d
  · have hany' : (d.any (fun e => e.1 == k0)) = false := by
      cases h2 : d.any (fun e => e.1 == k0) with
      | false => rfl
      | true => exact absurd h2 hany
    rw [show dictInsert d k0 v0 = d ++ [(k0, v0)] by
      unfold dictInsert; rw [hany']; rw [if_neg Bool.false_ne_true]]
    unfold dictLookup
    rw [List.find?_append]
    by_cases hk : k = k0
    · rw [if_pos hk]
      have hnone : d.find? (fun e => e.1 == k) = none := by
        rw [List.find?_eq_none]
        intro x hx hpx
        have hxk : x.1 = k := by rwa [beq_iff_eq] at hpx
        exact List.any_eq_false.mp hany' x hx (listBeq_true (hk ▸ hxk))
      rw [hnone]
      rw [show (([(k0, v0)] : List (List Nat × DVal)).find? (fun e => e.1 == k)) =
        some (k0, v0) by simp [listBeq_true hk.symm]]
      rfl
    · rw [if_neg hk]
      rw [show (([(k0, v0)] : List (List Nat × DVal)).find? (fun e => e.1 == k)) =
        none by simp [listBeq_false (fun hh => hk hh.symm)]]
      rw [Option.or_none]

theorem optMapOr {α β : Type} (f : α → β) (a b : Option α) :
    (a.or b).map f = (a.map f).or (b.map f) := by
  cases a <;> rfl

theorem lastVal_nil (k : List Nat) : lastVal [] k = none := rfl

theorem lastVal_cons (e : List Nat × DVal) (tl : List (List Nat × DVal))
    (k : List Nat) :
    lastVal (e :: tl) k =
      (lastVal tl k).or (if e.1 == k then some e.2 else none) := by
  unfold lastVal
  rw [List.reverse_cons, List.find?_append, optMapOr]
  congr 1
  by_cases hp : e.1 = k
  · simp [listBeq_true hp]
  · simp [listBeq_false hp]

/-- Replaying entries through Python-dict insertion and then looking a key
up yields the value of the key's last occurrence (falling back to the
accumulator). -/
theorem dictLookup_dfold : ∀ (es acc : List (List Nat × DVal)) (k : List Nat),
    dictLookup (dfold acc es) k = (lastVal es k).or (dictLookup acc k) := by
  intro es
  induction es with
  | nil => intro acc k; rfl
  | cons e tl ih =>
    intro acc k
    obtain ⟨k0, v0⟩ := e
    rw [dfold_cons, ih, lastVal_cons, dictLookup_insert, Option.or_assoc]
    congr 1
    by_cases hk : k = k0
    · rw [if_pos hk, if_pos (listBeq_true hk.symm)]
      rfl
    · rw [if_neg hk, if_neg (by
        rw [listBeq_false (fun hh => hk hh.symm)]; exact Bool.false_ne_true)]
      rfl

theorem lastVal_decodedOfEntries (es : List (List Nat × DVal)) (k : List Nat) :
    lastVal (decodedOfEntries es) k = (lastVal es k).map decodedOf := by
  induction es with
  | nil => rw [decodedOfEntries_nil]; rfl
  | cons e tl ih =>
    obtain ⟨k0, v0⟩ := e
    rw [decodedOfEntries_cons, lastVal_cons, lastVal_cons, ih, optMapOr]
    congr 1
    by_cases hk : k0 = k
    · rw [if_pos (listBeq_true hk), if_pos (listBeq_true hk)]
      rfl
    · rw [if_neg (by rw [listBeq_false hk]; exact Bool.false_ne_true),
        if_neg (by rw [listBeq_false hk]; exact Bool.false_ne_true)]
      rfl

theorem keys_decodedOfEntries (es : List (List Nat × DVal)) :
    (decodedOfEntries es).map Prod.fst = es.map Prod.fst := by
  induction es with
  | nil => rw [decodedOfEntries_nil]
  | cons e tl ih =>
    obtain ⟨k, v⟩ := e
    rw [decodedOfEntries_cons]
    simp only [List.map_cons]
    rw [ih]

theorem lastVal_isSome_of_mem {es : List (List Nat × DVal)} {k : List Nat}
    (h : k ∈ es.map Prod.fst) : (lastVal es k).isSome = true := by
  unfold lastVal
  rw [Option.isSome_map']
  rw [List.find?_isSome]
  obtain ⟨e, he, hek⟩ := List.mem_map.mp h
  exact ⟨e, List.mem_reverse.mpr he, listBeq_true hek⟩

/-! ## Claim theorems (part 3) -/

/-- C8: `decode_dict` does not validate key uniqueness: for every entry
sequence in which some key occurs more than once, decoding the dictionary
wire encoding succeeds, and the resulting mapping binds that key to the
(decoded) value of its last occurrence — Python-dict insertion overwrites,
so last write wins. -/
theorem c8_duplicate_keys_last_write_wins :
    ∀ (es : List (List Nat × DVal)) (k : List Nat),
    1 < (es.map Prod.fst).count k →
    decodeDict (wireVal (.dict es)) =
      .ok (dfold [] (decodedOfEntries es), (wireVal (.dict es)).length - 1) ∧
    dictLookup (dfold [] (decodedOfEntries es)) k = (lastVal es k).map decodedOf ∧
    ((lastVal es k).map decodedOf).isSome = true := by
  intro es k hcount
  refine ⟨?_, ?_, ?_⟩
  · have hs := spanP_all (.dict es) []
      (2 * (wireVal (.dict es)).length + 1) (by simp)
    rw [List.append_nil] at hs
    exact hs
  · rw [dictLookup_dfold,
      show dictLookup ([] : List (List Nat × DVal)) k = none from rfl,
      Option.or_none, lastVal_decodedOfEntries]
  · rw [← lastVal_decodedOfEntries]
    exact lastVal_isSome_of_mem (by
      rw [keys_decodedOfEntries]
      exact List.count_pos_iff.mp (by omega))

/-- C8 witness: the buffer `d1:ki1e1:ki2ee` has key `k` twice; decoding
succeeds and the mapping binds `k` to the second value. -/
theorem c8_witness :
    1 < (([([107], DVal.int 1), ([107], DVal.int 2)].map Prod.fst).count [107]) ∧
    (decodeDict (wireVal (.dict [([107], DVal.int 1), ([107], DVal.int 2)])) =
      .ok (dfold [] (decodedOfEntries [([107], DVal.int 1), ([107], DVal.int 2)]),
        (wireVal (.dict [([107], DVal.int 1), ([107], DVal.int 2)])).length - 1) ∧
     dictLookup (dfold [] (decodedOfEntries [([107], DVal.int 1), ([107], DVal.int 2)]))
        [107] =
       (lastVal [([107], DVal.int 1), ([107], DVal.int 2)] [107]).map decodedOf ∧
     ((lastVal [([107], DVal.int 1), ([107], DVal.int 2)] [107]).map
        decodedOf).isSome = true) :=
  ⟨by decide,
   c8_duplicate_keys_last_write_wins [([107], DVal.int 1), ([107], DVal.int 2)]
     [107] (by decide)⟩

end Bencode
